import Mathlib

/-!
# BlueCrypt core: a shallow embedding and verification

This file embeds the core of `bluecrypt_core.py` (key derivation, secret-file
envelope, AES-GCM payload wrapping, the 2:2:4 LSB steganography codec, and the
PSNR metric) as Lean definitions, and proves the specification's claims about
them.

Conventions of the embedding:
* Python `bytes` values are `List Nat` with every element `< 256`.
* A pixel is an `(r, g, b)` triple of channel values (`Nat`, `< 256` for real
  images); a PIL RGB image is an `Img`: a width, a height, and the row-major
  flat pixel list (as produced by `np.array(img).reshape(-1, 3)`).
* Python exceptions are modelled by `Except Err`; the single Python class
  `BlueCryptError` carries a message string, and each distinct message site is
  mapped to its own `Err` constructor (named as in the spec's error taxonomy).
* `int.to_bytes(n, "big")` raises `OverflowError` on values `≥ 256^n`; that
  exception is modelled by the `Err.overflow` constructor.
-/

set_option maxRecDepth 10000

namespace BlueCrypt

/-- `MAGIC = b"BCP1"` from the source. -/
def MAGIC : List Nat := [66, 67, 80, 49]

def NONCE_LEN : Nat := 12

def TAG_LEN : Nat := 16

def HEADER_LEN : Nat := 4

/-- The error conditions raised by `bluecrypt_core.py`.  The Python source
raises a single exception class `BlueCryptError` whose message distinguishes
the cases; each raise site gets one constructor here, named after the spec's
error taxonomy (§7).  `capacityExceeded` records the required and available
byte counts interpolated into the Python message.  `overflow` stands for the
Python built-in `OverflowError` escaping from `int.to_bytes`. -/
inductive Err where
  | emptyPassword
  | emptySecret
  | nameTooLong
  | tooShortEnvelope
  | badMagic
  | corrupted
  | emptyData
  | tooShort
  | authenticationFailed
  | emptyPayload
  | capacityExceeded (needed : Nat) (available : Nat)
  | imageTooSmall
  | invalidPayload
  | dimensionMismatch
  | overflow
  deriving DecidableEq, Repr

/-- One RGB pixel: `(red, green, blue)` channel values. -/
abbrev Pixel := Nat × Nat × Nat

/-- A decoded RGB image: dimensions plus the row-major flat pixel list, as
obtained from `np.array(rgb_image, dtype=np.uint8).reshape(-1, 3)`. -/
structure Img where
  width : Nat
  height : Nat
  pixels : List Pixel
  deriving DecidableEq, Repr

/-- A real image's flat pixel array has exactly `width * height` entries. -/
def Img.wf (img : Img) : Prop :=
  img.pixels.length = img.width * img.height

instance (img : Img) : Decidable img.wf := by
  unfold Img.wf; infer_instance

/-- Big-endian base-256 digits (`k` of them) of `n`, the digit semantics of
Python's `int.to_bytes(k, "big")` for in-range values. -/
def natToBytesBEAux : Nat → Nat → List Nat
  | 0, _ => []
  | k + 1, n => natToBytesBEAux k (n / 256) ++ [n % 256]

/-- Python's `int.to_bytes(numBytes, "big")`: the big-endian digits, or
`OverflowError` when the value does not fit. -/
def natToBytesBE (numBytes n : Nat) : Except Err (List Nat) :=
  if n < 256 ^ numBytes then .ok (natToBytesBEAux numBytes n) else .error .overflow

/-- Python's `int.from_bytes(bs, "big")`. -/
def natFromBytesBE (bs : List Nat) : Nat :=
  bs.foldl (fun acc b => acc * 256 + b) 0

/-- `_bytes_to_224_channels` from the source: per payload byte, red gets bits
7-6, green bits 5-4, blue bits 3-0. -/
def bytesTo224Channels (data : List Nat) : List Nat × List Nat × List Nat :=
  (data.map fun b => (b >>> 6) &&& 0x03,
   data.map fun b => (b >>> 4) &&& 0x03,
   data.map fun b => b &&& 0x0F)

/-- `_channels_to_bytes` from the source: reassemble one byte per pixel from
the low 2/2/4 bits of the red/green/blue channels. -/
def channelsToBytes (pixels : List Pixel) : List Nat :=
  pixels.map fun p => (((p.1 &&& 0x03) <<< 6) ||| ((p.2.1 &&& 0x03) <<< 4)) ||| (p.2.2 &&& 0x0F)

/-- `max_embeddable_payload_bytes` from the source:
`max(width * height - HEADER_LEN, 0)` (truncated subtraction on `Nat` equals
Python's `max(... , 0)` here). -/
def max_embeddable_payload_bytes (img : Img) : Nat :=
  max (img.width * img.height - HEADER_LEN) 0

/-- The per-pixel channel update performed by the three numpy assignments in
`embed_encrypted_data`:
`pixels[i,0] = (pixels[i,0] & 0xFC) | red_bits[i]` and so on, with the
`red_bits`/`green_bits`/`blue_bits` taken from `_bytes_to_224_channels`. -/
def embedByteIntoPixel (p : Pixel) (b : Nat) : Pixel :=
  ((p.1 &&& 0xFC) ||| ((b >>> 6) &&& 0x03),
   (p.2.1 &&& 0xFC) ||| ((b >>> 4) &&& 0x03),
   (p.2.2 &&& 0xF0) ||| (b &&& 0x0F))

/-- `embed_encrypted_data` from the source.  The numpy slice assignment
`pixels[:count, c] = ...` updates the first `count` pixels (the header plus the
payload) and leaves the rest of the copied array unchanged; this is rendered
as `zipWith` on the prefix followed by the untouched suffix. -/
def embed_encrypted_data (cover : Img) (encrypted_payload : List Nat) :
    Except Err Img :=
  if encrypted_payload = [] then .error .emptyPayload
  else
    let capacity := max_embeddable_payload_bytes cover
    if encrypted_payload.length > capacity then
      .error (.capacityExceeded encrypted_payload.length capacity)
    else do
      let header ← natToBytesBE HEADER_LEN encrypted_payload.length
      let payload := header ++ encrypted_payload
      let count := payload.length
      let stegoPixels :=
        List.zipWith embedByteIntoPixel (cover.pixels.take count) payload ++
          cover.pixels.drop count
      .ok { width := cover.width, height := cover.height, pixels := stegoPixels }

/-- `extract_encrypted_data` from the source.  `data_len <= 0` in Python is
`data_len = 0` here (`int.from_bytes` is never negative). -/
def extract_encrypted_data (stego : Img) : Except Err (List Nat) :=
  let pixels := stego.pixels
  if pixels.length ≤ HEADER_LEN then .error .imageTooSmall
  else
    let header_bytes := channelsToBytes (pixels.take HEADER_LEN)
    let data_len := natFromBytesBE header_bytes
    let max_data_len := pixels.length - HEADER_LEN
    if data_len = 0 ∨ data_len > max_data_len then .error .invalidPayload
    else .ok (channelsToBytes ((pixels.drop HEADER_LEN).take data_len))

/-! ## Arithmetic and bit-level helper lemmas -/

theorem natToBytesBEAux_length (k n : Nat) : (natToBytesBEAux k n).length = k := by
  induction k generalizing n with
  | zero => rfl
  | succ k ih => simp [natToBytesBEAux, ih]

theorem natToBytesBEAux_lt (k n : Nat) : ∀ b ∈ natToBytesBEAux k n, b < 256 := by
  induction k generalizing n with
  | zero => simp [natToBytesBEAux]
  | succ k ih =>
    intro b hb
    simp only [natToBytesBEAux, List.mem_append, List.mem_singleton] at hb
    rcases hb with hb | hb
    · exact ih _ b hb
    · omega

theorem natFromBytesBE_natToBytesBEAux (k n : Nat) (h : n < 256 ^ k) :
    natFromBytesBE (natToBytesBEAux k n) = n := by
  induction k generalizing n with
  | zero =>
    simp only [pow_zero, Nat.lt_one_iff] at h
    simp [natToBytesBEAux, natFromBytesBE, h]
  | succ k ih =>
    have hdiv : n / 256 < 256 ^ k := by
      rw [Nat.div_lt_iff_lt_mul (by omega)]
      calc n < 256 ^ (k + 1) := h
        _ = 256 ^ k * 256 := by ring
    have := ih (n / 256) hdiv
    simp only [natToBytesBEAux, natFromBytesBE, List.foldl_append, List.foldl_cons,
      List.foldl_nil] at this ⊢
    rw [this]
    omega

theorem and_lt_four (x : Nat) : x &&& 3 < 4 :=
  Nat.lt_of_le_of_lt (Nat.and_le_right) (by omega)

theorem and_lt_sixteen (x : Nat) : x &&& 15 < 16 :=
  Nat.lt_of_le_of_lt (Nat.and_le_right) (by omega)

theorem and_three_of_lt (v : Nat) (h : v < 4) : v &&& 3 = v := by
  have h3 : (3 : Nat) = 2 ^ 2 - 1 := rfl
  rw [h3, Nat.and_pow_two_sub_one_eq_mod]
  exact Nat.mod_eq_of_lt h

theorem and_fifteen_of_lt (v : Nat) (h : v < 16) : v &&& 15 = v := by
  have h15 : (15 : Nat) = 2 ^ 4 - 1 := rfl
  rw [h15, Nat.and_pow_two_sub_one_eq_mod]
  exact Nat.mod_eq_of_lt h

/-- Masking with `n` recovers exactly the freshly written low bits `v` when the
kept mask `m` is disjoint from `n` and `v` lies inside `n`. -/
theorem and_or_cancel (x v m n : Nat) (hmn : m &&& n = 0) (hv : v &&& n = v) :
    ((x &&& m) ||| v) &&& n = v := by
  apply Nat.eq_of_testBit_eq
  intro i
  have hm := congrArg (Nat.testBit · i) hmn
  have hv' := congrArg (Nat.testBit · i) hv
  simp only [Nat.testBit_and, Nat.testBit_or, Nat.zero_testBit] at hm hv'
  simp only [Nat.testBit_and, Nat.testBit_or]
  cases hn : n.testBit i <;> cases hmm : m.testBit i <;> simp_all

theorem shift2_embed (x v : Nat) (hx : x < 256) (hv : v < 4) :
    ((x &&& 252) ||| v) >>> 2 = x >>> 2 := by
  apply Nat.eq_of_testBit_eq
  intro i
  simp only [Nat.testBit_shiftRight, Nat.testBit_or, Nat.testBit_and]
  have hvb : v.testBit (2 + i) = false :=
    Nat.testBit_lt_two_pow (by
      calc v < 2 ^ 2 := by omega
        _ ≤ 2 ^ (2 + i) := Nat.pow_le_pow_right (by omega) (by omega))
  by_cases h8 : i < 6
  · have h252 : (252 : Nat).testBit (2 + i) = true := by
      interval_cases i <;> decide
    simp [hvb, h252]
  · have hxb : x.testBit (2 + i) = false :=
      Nat.testBit_lt_two_pow (by
        calc x < 2 ^ 8 := by omega
          _ ≤ 2 ^ (2 + i) := Nat.pow_le_pow_right (by omega) (by omega))
    have h252 : (252 : Nat).testBit (2 + i) = false :=
      Nat.testBit_lt_two_pow (by
        calc (252 : Nat) < 2 ^ 8 := by omega
          _ ≤ 2 ^ (2 + i) := Nat.pow_le_pow_right (by omega) (by omega))
    simp [hvb, hxb, h252]

theorem shift4_embed (x v : Nat) (hx : x < 256) (hv : v < 16) :
    ((x &&& 240) ||| v) >>> 4 = x >>> 4 := by
  apply Nat.eq_of_testBit_eq
  intro i
  simp only [Nat.testBit_shiftRight, Nat.testBit_or, Nat.testBit_and]
  have hvb : v.testBit (4 + i) = false :=
    Nat.testBit_lt_two_pow (by
      calc v < 2 ^ 4 := by omega
        _ ≤ 2 ^ (4 + i) := Nat.pow_le_pow_right (by omega) (by omega))
  by_cases h8 : i < 4
  · have h240 : (240 : Nat).testBit (4 + i) = true := by
      interval_cases i <;> decide
    simp [hvb, h240]
  · have hxb : x.testBit (4 + i) = false :=
      Nat.testBit_lt_two_pow (by
        calc x < 2 ^ 8 := by omega
          _ ≤ 2 ^ (4 + i) := Nat.pow_le_pow_right (by omega) (by omega))
    have h240 : (240 : Nat).testBit (4 + i) = false :=
      Nat.testBit_lt_two_pow (by
        calc (240 : Nat) < 2 ^ 8 := by omega
          _ ≤ 2 ^ (4 + i) := Nat.pow_le_pow_right (by omega) (by omega))
    simp [hvb, hxb, h240]

theorem byte_reassemble :
    ∀ b < 256, ((((b >>> 6) &&& 3) <<< 6) ||| (((b >>> 4) &&& 3) <<< 4)) ||| (b &&& 15) = b := by
  decide

/-- Decoding a pixel that had byte `b` embedded into it recovers `b`. -/
theorem byte_of_embedByte (p : Pixel) (b : Nat) (hb : b < 256) :
    ((((embedByteIntoPixel p b).1 &&& 3) <<< 6) |||
      (((embedByteIntoPixel p b).2.1 &&& 3) <<< 4)) |||
        ((embedByteIntoPixel p b).2.2 &&& 15) = b := by
  obtain ⟨r, g, bl⟩ := p
  show ((((r &&& 252 ||| (b >>> 6) &&& 3) &&& 3) <<< 6) |||
      (((g &&& 252 ||| (b >>> 4) &&& 3) &&& 3) <<< 4)) |||
        ((bl &&& 240 ||| b &&& 15) &&& 15) = b
  rw [and_or_cancel r _ 252 3 (by decide) (and_three_of_lt _ (and_lt_four _)),
    and_or_cancel g _ 252 3 (by decide) (and_three_of_lt _ (and_lt_four _)),
    and_or_cancel bl _ 240 15 (by decide) (and_fifteen_of_lt _ (and_lt_sixteen _))]
  exact byte_reassemble b hb

theorem channelsToBytes_zipWith (ps : List Pixel) (bs : List Nat)
    (hb : ∀ b ∈ bs, b < 256) (hl : bs.length ≤ ps.length) :
    channelsToBytes (List.zipWith embedByteIntoPixel ps bs) = bs := by
  induction bs generalizing ps with
  | nil => cases ps <;> rfl
  | cons b bs ih =>
    cases ps with
    | nil => simp at hl
    | cons p ps =>
      have h1 := byte_of_embedByte p b (hb b (by simp))
      have h2 := ih ps (fun x hx => hb x (by simp [hx])) (by simpa using hl)
      simp only [List.zipWith_cons_cons, channelsToBytes, List.map_cons, List.cons.injEq]
      exact ⟨h1, by simpa only [channelsToBytes] using h2⟩

theorem length_channelsToBytes (ps : List Pixel) :
    (channelsToBytes ps).length = ps.length := by
  simp [channelsToBytes]

/-! ## Structural lemmas about `embed_encrypted_data` -/

theorem max_embeddable_eq (img : Img) :
    max_embeddable_payload_bytes img = img.width * img.height - HEADER_LEN := by
  simp [max_embeddable_payload_bytes]

theorem embed_empty_error (cover : Img) :
    embed_encrypted_data cover [] = .error .emptyPayload := rfl

theorem embed_cap_error (cover : Img) (blob : List Nat) (hne : blob ≠ [])
    (hgt : blob.length > max_embeddable_payload_bytes cover) :
    embed_encrypted_data cover blob =
      .error (.capacityExceeded blob.length (max_embeddable_payload_bytes cover)) := by
  unfold embed_encrypted_data
  rw [if_neg hne, if_pos hgt]

theorem embed_overflow_error (cover : Img) (blob : List Nat) (hne : blob ≠ [])
    (hcap : ¬ blob.length > max_embeddable_payload_bytes cover)
    (hsz : ¬ blob.length < 256 ^ HEADER_LEN) :
    embed_encrypted_data cover blob = .error .overflow := by
  unfold embed_encrypted_data natToBytesBE
  rw [if_neg hne, if_neg hcap, if_neg hsz]
  rfl

/-- The successful branch of `embed_encrypted_data`, written out. -/
theorem embed_eq (cover : Img) (blob : List Nat) (hne : blob ≠ [])
    (hcap : blob.length ≤ max_embeddable_payload_bytes cover)
    (hsz : blob.length < 256 ^ HEADER_LEN) :
    embed_encrypted_data cover blob = .ok
      { width := cover.width, height := cover.height,
        pixels := List.zipWith embedByteIntoPixel
            (cover.pixels.take (HEADER_LEN + blob.length))
            (natToBytesBEAux HEADER_LEN blob.length ++ blob) ++
          cover.pixels.drop (HEADER_LEN + blob.length) } := by
  unfold embed_encrypted_data natToBytesBE
  rw [if_neg hne, if_neg (by omega : ¬ blob.length > max_embeddable_payload_bytes cover),
    if_pos hsz]
  show Except.ok _ = _
  simp [List.length_append, natToBytesBEAux_length]

/-- Success data derived from `embed_encrypted_data cover blob = .ok stego`:
the payload was non-empty, fit the capacity, and its length header fit four
bytes; and `stego` is the grid written out by `embed_eq`. -/
theorem of_embed_ok (cover : Img) (blob : List Nat) (stego : Img)
    (hemb : embed_encrypted_data cover blob = .ok stego) :
    blob ≠ [] ∧ blob.length ≤ max_embeddable_payload_bytes cover ∧
      blob.length < 256 ^ HEADER_LEN ∧
      stego =
        { width := cover.width, height := cover.height,
          pixels := List.zipWith embedByteIntoPixel
              (cover.pixels.take (HEADER_LEN + blob.length))
              (natToBytesBEAux HEADER_LEN blob.length ++ blob) ++
            cover.pixels.drop (HEADER_LEN + blob.length) } := by
  have hne : blob ≠ [] := by
    intro h
    subst h
    rw [embed_empty_error] at hemb
    exact Except.noConfusion hemb
  have hcap : ¬ blob.length > max_embeddable_payload_bytes cover := by
    intro h
    rw [embed_cap_error cover blob hne h] at hemb
    exact Except.noConfusion hemb
  have hsz : blob.length < 256 ^ HEADER_LEN := by
    by_contra h
    rw [embed_overflow_error cover blob hne hcap h] at hemb
    exact Except.noConfusion hemb
  rw [embed_eq cover blob hne (by omega) hsz] at hemb
  exact ⟨hne, by omega, hsz, (Except.ok.inj hemb).symm⟩

/-! ## Claims C3, C5, C6, C7 -/

/-- A sample 3x3 cover image used by concrete witnesses. -/
def cover9 : Img :=
  { width := 3, height := 3,
    pixels := [(10, 20, 30), (40, 50, 60), (70, 80, 90), (100, 110, 120), (130, 140, 150),
      (160, 170, 180), (190, 200, 210), (220, 230, 240), (250, 0, 5)] }

/-- C3 as stated is refuted by the empty payload: its length never exceeds the
capacity, yet `embed_encrypted_data` rejects it with `EmptyPayload`. -/
theorem C3_counterexample :
    ¬ ((∃ s, embed_encrypted_data ⟨3, 3, List.replicate 9 (0, 0, 0)⟩ ([] : List Nat) = .ok s) ↔
      List.length ([] : List Nat) ≤ 3 * 3 - HEADER_LEN) := by
  intro h
  obtain ⟨s, hs⟩ := h.mpr (by decide)
  rw [embed_empty_error] at hs
  exact Except.noConfusion hs

/-- C3 (amended): for every pixel grid and every non-empty payload whose
length fits the 4-byte header, `embed_encrypted_data` succeeds iff
`len(blob) ≤ width*height - 4`; one byte over the boundary it fails with
`CapacityExceeded` citing required vs. available bytes. -/
theorem C3_capacity_boundary (cover : Img) (blob : List Nat) (hne : blob ≠ [])
    (hsz : blob.length < 256 ^ HEADER_LEN) :
    ((∃ stego, embed_encrypted_data cover blob = .ok stego) ↔
      blob.length ≤ cover.width * cover.height - HEADER_LEN)
    ∧ (blob.length = cover.width * cover.height - HEADER_LEN + 1 →
        embed_encrypted_data cover blob =
          .error (.capacityExceeded blob.length
            (cover.width * cover.height - HEADER_LEN))) := by
  constructor
  · constructor
    · rintro ⟨s, hs⟩
      obtain ⟨-, hcap, -, -⟩ := of_embed_ok cover blob s hs
      rwa [max_embeddable_eq] at hcap
    · intro hle
      exact ⟨_, embed_eq cover blob hne (by rw [max_embeddable_eq]; omega) hsz⟩
  · intro hover
    have := embed_cap_error cover blob hne (by rw [max_embeddable_eq]; omega)
    rwa [max_embeddable_eq] at this

/-- C3 witness: on a 3x3 grid (capacity 5) a 5-byte payload is accepted and a
6-byte payload is rejected with `CapacityExceeded 6 5`. -/
theorem C3_witness :
    (∃ stego, embed_encrypted_data cover9 [1, 2, 3, 4, 5] = .ok stego)
    ∧ embed_encrypted_data cover9 [1, 2, 3, 4, 5, 6] =
        .error (.capacityExceeded 6 (3 * 3 - HEADER_LEN)) :=
  ⟨(C3_capacity_boundary cover9 [1, 2, 3, 4, 5] (by decide) (by decide)).1.mpr (by decide),
    (C3_capacity_boundary cover9 [1, 2, 3, 4, 5, 6] (by decide) (by decide)).2 (by decide)⟩

/-- C5: embedding a payload byte `b` into a pixel `(r, g, bl)` yields exactly
`((r & 0xFC) | (b>>6 & 3), (g & 0xFC) | (b>>4 & 3), (bl & 0xF0) | (b & 0xF))`,
and the high bits of every channel (bits 7-2 of red/green, bits 7-4 of blue)
are untouched. -/
theorem C5_channel_split (r g bl b : Nat) (hr : r < 256) (hg : g < 256)
    (hbl : bl < 256) (_hb : b < 256) :
    embedByteIntoPixel (r, g, bl) b =
      ((r &&& 0xFC) ||| ((b >>> 6) &&& 0x03),
       (g &&& 0xFC) ||| ((b >>> 4) &&& 0x03),
       (bl &&& 0xF0) ||| (b &&& 0x0F))
    ∧ (embedByteIntoPixel (r, g, bl) b).1 >>> 2 = r >>> 2
    ∧ (embedByteIntoPixel (r, g, bl) b).2.1 >>> 2 = g >>> 2
    ∧ (embedByteIntoPixel (r, g, bl) b).2.2 >>> 4 = bl >>> 4 := by
  refine ⟨rfl, ?_, ?_, ?_⟩
  · exact shift2_embed r _ hr (and_lt_four _)
  · exact shift2_embed g _ hg (and_lt_four _)
  · exact shift4_embed bl _ hbl (and_lt_sixteen _)

/-- C5 witness: the split at pixel `(200, 100, 50)` and byte `171`. -/
theorem C5_witness :
    embedByteIntoPixel (200, 100, 50) 171 =
      ((200 &&& 0xFC) ||| ((171 >>> 6) &&& 0x03),
       (100 &&& 0xFC) ||| ((171 >>> 4) &&& 0x03),
       (50 &&& 0xF0) ||| (171 &&& 0x0F))
    ∧ (embedByteIntoPixel (200, 100, 50) 171).1 >>> 2 = 200 >>> 2
    ∧ (embedByteIntoPixel (200, 100, 50) 171).2.1 >>> 2 = 100 >>> 2
    ∧ (embedByteIntoPixel (200, 100, 50) 171).2.2 >>> 4 = 50 >>> 4 :=
  C5_channel_split 200 100 50 171 (by decide) (by decide) (by decide) (by decide)

/-- C6: a successful embed preserves the grid dimensions and the pixel count,
and every pixel from index `4 + len(blob)` on is byte-for-byte the cover
pixel.  (The input grid itself cannot be mutated: the embedding is a pure
function of it, mirroring the numpy copy the source makes.) -/
theorem C6_frame_preservation (cover : Img) (blob : List Nat) (stego : Img)
    (hwf : cover.pixels.length = cover.width * cover.height)
    (hemb : embed_encrypted_data cover blob = .ok stego) :
    stego.width = cover.width ∧ stego.height = cover.height ∧
      stego.pixels.length = cover.pixels.length ∧
      stego.pixels.drop (HEADER_LEN + blob.length) =
        cover.pixels.drop (HEADER_LEN + blob.length) := by
  obtain ⟨hne, hcap, hsz, rfl⟩ := of_embed_ok cover blob stego hemb
  have hLpos : 0 < blob.length := List.length_pos.mpr hne
  have hcap' : blob.length ≤ cover.width * cover.height - HEADER_LEN := by
    rwa [max_embeddable_eq] at hcap
  have hPlen : HEADER_LEN + blob.length ≤ cover.pixels.length := by rw [hwf]; omega
  have hZlen : (List.zipWith embedByteIntoPixel
      (cover.pixels.take (HEADER_LEN + blob.length))
      (natToBytesBEAux HEADER_LEN blob.length ++ blob)).length =
        HEADER_LEN + blob.length := by
    simp [List.length_zipWith, List.length_take, List.length_append, natToBytesBEAux_length]
    omega
  refine ⟨rfl, rfl, ?_, ?_⟩
  · simp only [List.length_append, hZlen, List.length_drop]
    omega
  · simp only
    rw [List.drop_append_of_le_length (by omega),
      List.drop_eq_nil_of_le (by omega), List.nil_append]

/-- C6 witness: embedding `[171, 205]` into the 3x3 sample grid. -/
theorem C6_witness :
    (⟨3, 3, [(8, 20, 16), (40, 48, 48), (68, 80, 80), (100, 108, 114), (130, 142, 155),
        (163, 168, 189), (190, 200, 210), (220, 230, 240), (250, 0, 5)]⟩ : Img).width = 3
    ∧ (⟨3, 3, [(8, 20, 16), (40, 48, 48), (68, 80, 80), (100, 108, 114), (130, 142, 155),
        (163, 168, 189), (190, 200, 210), (220, 230, 240), (250, 0, 5)]⟩ : Img).height = 3
    ∧ (⟨3, 3, [(8, 20, 16), (40, 48, 48), (68, 80, 80), (100, 108, 114), (130, 142, 155),
        (163, 168, 189), (190, 200, 210), (220, 230, 240), (250, 0, 5)]⟩ : Img).pixels.length =
        cover9.pixels.length
    ∧ (⟨3, 3, [(8, 20, 16), (40, 48, 48), (68, 80, 80), (100, 108, 114), (130, 142, 155),
        (163, 168, 189), (190, 200, 210), (220, 230, 240), (250, 0, 5)]⟩ : Img).pixels.drop
          (HEADER_LEN + List.length [171, 205]) =
        cover9.pixels.drop (HEADER_LEN + List.length [171, 205]) := by
  have h := C6_frame_preservation cover9 [171, 205]
    ⟨3, 3, [(8, 20, 16), (40, 48, 48), (68, 80, 80), (100, 108, 114), (130, 142, 155),
      (163, 168, 189), (190, 200, 210), (220, 230, 240), (250, 0, 5)]⟩ (by decide) (by rfl)
  exact ⟨h.1, h.2.1, h.2.2.1, h.2.2.2⟩

/-- C7: extraction fails with `ImageTooSmall` on grids of at most 4 pixels;
otherwise, with `L` the big-endian value decoded from the first 4 pixels, it
fails with `InvalidPayload` exactly when `L = 0` or `L > total_pixels - 4`,
and on success returns exactly the `L` bytes decoded from the next `L`
pixels. -/
theorem C7_extract_validation (img : Img) :
    (img.pixels.length ≤ HEADER_LEN →
      extract_encrypted_data img = .error .imageTooSmall)
    ∧ (HEADER_LEN < img.pixels.length →
        (natFromBytesBE (channelsToBytes (img.pixels.take HEADER_LEN)) = 0 ∨
            img.pixels.length - HEADER_LEN <
              natFromBytesBE (channelsToBytes (img.pixels.take HEADER_LEN)) →
          extract_encrypted_data img = .error .invalidPayload)
        ∧ (0 < natFromBytesBE (channelsToBytes (img.pixels.take HEADER_LEN)) →
            natFromBytesBE (channelsToBytes (img.pixels.take HEADER_LEN)) ≤
              img.pixels.length - HEADER_LEN →
            extract_encrypted_data img =
              .ok (channelsToBytes ((img.pixels.drop HEADER_LEN).take
                (natFromBytesBE (channelsToBytes (img.pixels.take HEADER_LEN)))))
            ∧ (channelsToBytes ((img.pixels.drop HEADER_LEN).take
                (natFromBytesBE (channelsToBytes (img.pixels.take HEADER_LEN))))).length =
              natFromBytesBE (channelsToBytes (img.pixels.take HEADER_LEN)))) := by
  refine ⟨fun hle => ?_, fun hgt => ⟨fun hbad => ?_, fun h1 h2 => ⟨?_, ?_⟩⟩⟩
  · simp only [extract_encrypted_data]
    rw [if_pos hle]
  · simp only [extract_encrypted_data]
    rw [if_neg (by omega), if_pos (by omega)]
  · simp only [extract_encrypted_data]
    rw [if_neg (by omega), if_neg (by omega)]
  · rw [length_channelsToBytes]
    simp only [List.length_take, List.length_drop]
    omega

/-- C7 witness: a 6-pixel all-zero grid decodes header length 0 and is
rejected with `InvalidPayload` (spec scenario 3). -/
theorem C7_witness :
    extract_encrypted_data ⟨3, 2, List.replicate 6 (0, 0, 0)⟩ = .error .invalidPayload :=
  ((C7_extract_validation ⟨3, 2, List.replicate 6 (0, 0, 0)⟩).2 (by decide)).1
    (Or.inl (by decide))

/-! ## Claim C1: the stego round trip -/

/-- C1: for any pixel grid whose capacity holds the blob, extracting from the
image produced by a successful embed returns exactly the blob. -/
theorem C1_stego_roundtrip (cover : Img) (blob : List Nat) (stego : Img)
    (hwf : cover.pixels.length = cover.width * cover.height)
    (hbytes : ∀ b ∈ blob, b < 256)
    (hcap : blob.length ≤ max_embeddable_payload_bytes cover)
    (hne : blob ≠ [])
    (hemb : embed_encrypted_data cover blob = .ok stego) :
    extract_encrypted_data stego = .ok blob := by
  obtain ⟨-, -, hsz, rfl⟩ := of_embed_ok cover blob stego hemb
  have hLpos : 0 < blob.length := List.length_pos.mpr hne
  have hcap' : blob.length ≤ cover.width * cover.height - HEADER_LEN := by
    rwa [max_embeddable_eq] at hcap
  have hPlen : HEADER_LEN + blob.length ≤ cover.pixels.length := by rw [hwf]; omega
  have hhdrlen : (natToBytesBEAux HEADER_LEN blob.length).length = HEADER_LEN :=
    natToBytesBEAux_length _ _
  have hFlen : (natToBytesBEAux HEADER_LEN blob.length ++ blob).length =
      HEADER_LEN + blob.length := by
    simp [hhdrlen]
  have htake : (cover.pixels.take (HEADER_LEN + blob.length)).length =
      HEADER_LEN + blob.length := by
    simp only [List.length_take]
    omega
  have hZlen : (List.zipWith embedByteIntoPixel
      (cover.pixels.take (HEADER_LEN + blob.length))
      (natToBytesBEAux HEADER_LEN blob.length ++ blob)).length =
        HEADER_LEN + blob.length := by
    simp only [List.length_zipWith, htake, hFlen]
    omega
  -- the first HEADER_LEN stego pixels carry the header digits
  have hheader : (List.zipWith embedByteIntoPixel
        (cover.pixels.take (HEADER_LEN + blob.length))
        (natToBytesBEAux HEADER_LEN blob.length ++ blob) ++
        cover.pixels.drop (HEADER_LEN + blob.length)).take HEADER_LEN =
      List.zipWith embedByteIntoPixel
        ((cover.pixels.take (HEADER_LEN + blob.length)).take HEADER_LEN)
        (natToBytesBEAux HEADER_LEN blob.length) := by
    rw [List.take_append_of_le_length (by omega), List.take_zipWith]
    congr 1
  have hheader_bytes : natFromBytesBE (channelsToBytes (List.zipWith embedByteIntoPixel
        ((cover.pixels.take (HEADER_LEN + blob.length)).take HEADER_LEN)
        (natToBytesBEAux HEADER_LEN blob.length))) = blob.length := by
    rw [channelsToBytes_zipWith _ _ (natToBytesBEAux_lt _ _)
      (by simp only [List.length_take, hhdrlen]; omega)]
    exact natFromBytesBE_natToBytesBEAux _ _ hsz
  -- the next blob.length stego pixels carry the blob
  have hpay : ((List.zipWith embedByteIntoPixel
        (cover.pixels.take (HEADER_LEN + blob.length))
        (natToBytesBEAux HEADER_LEN blob.length ++ blob) ++
        cover.pixels.drop (HEADER_LEN + blob.length)).drop HEADER_LEN).take blob.length =
      List.zipWith embedByteIntoPixel
        ((cover.pixels.take (HEADER_LEN + blob.length)).drop HEADER_LEN) blob := by
    rw [List.drop_append_of_le_length (by omega), List.drop_zipWith,
      List.take_append_of_le_length
        (by simp only [List.length_zipWith, List.length_drop, htake, hFlen]; omega),
      List.take_of_length_le
        (by simp only [List.length_zipWith, List.length_drop, htake, hFlen]; omega)]
    congr 1
  have hpay_bytes : channelsToBytes (List.zipWith embedByteIntoPixel
        ((cover.pixels.take (HEADER_LEN + blob.length)).drop HEADER_LEN) blob) = blob :=
    channelsToBytes_zipWith _ _ hbytes
      (by simp only [List.length_drop, htake]; omega)
  simp only [extract_encrypted_data, List.length_append, hZlen, List.length_drop]
  rw [if_neg (by omega), hheader, hheader_bytes, if_neg (by omega), hpay, hpay_bytes]

/-- C1 witness: embedding `[171, 205]` into the 3x3 sample grid and
extracting it back. -/
theorem C1_witness :
    extract_encrypted_data ⟨3, 3, [(8, 20, 16), (40, 48, 48), (68, 80, 80), (100, 108, 114),
      (130, 142, 155), (163, 168, 189), (190, 200, 210), (220, 230, 240), (250, 0, 5)]⟩ =
      .ok [171, 205] :=
  C1_stego_roundtrip cover9 [171, 205] _ (by decide) (by decide) (by decide) (by decide)
    (by rfl)

/-! ## UTF-8 codec

The source calls Python's built-in `str.encode("utf-8")` and
`bytes.decode("utf-8", errors="replace")`, which live outside the repository;
they are modelled here from the UTF-8 definition.  Lean's `Char` is exactly a
Unicode scalar value, which is exactly the domain on which Python's UTF-8
encoder is total (a Python `str` holding a lone surrogate makes `encode`
raise, and such strings have no representation here). -/

/-- U+FFFD, the replacement character emitted for undecodable input. -/
def replacementChar : Char := Char.ofNat 0xFFFD

/-- Modelled from the spec: the UTF-8 encoding of one Unicode scalar value,
as produced by Python's `str.encode("utf-8")` (standard library, not part of
`src/`). -/
def utf8EncodeChar (c : Char) : List Nat :=
  let v := c.toNat
  if v < 0x80 then [v]
  else if v < 0x800 then [0xC0 + v / 64, 0x80 + v % 64]
  else if v < 0x10000 then [0xE0 + v / 4096, 0x80 + v / 64 % 64, 0x80 + v % 64]
  else [0xF0 + v / 262144, 0x80 + v / 4096 % 64, 0x80 + v / 64 % 64, 0x80 + v % 64]

/-- The UTF-8 encoding of a string (as its scalar-value list). -/
def utf8Encode : List Char → List Nat
  | [] => []
  | c :: cs => utf8EncodeChar c ++ utf8Encode cs

/-- Modelled from the spec: one step of Python's permissive UTF-8 decoder
(`errors="replace"`, standard library, not part of `src/`): given the first
byte and the remaining bytes, produce the decoded character and the bytes
left over.  Valid sequences (including the overlong, surrogate and range
checks) decode exactly; an invalid sequence yields U+FFFD and consumes one
byte.  Only valid encodings are exercised by the claims. -/
def utf8DecodeStep (b0 : Nat) (rest : List Nat) : Char × List Nat :=
  if b0 < 0x80 then (Char.ofNat b0, rest)
  else if 0xC0 ≤ b0 ∧ b0 < 0xE0 then
    match rest with
    | b1 :: rest2 =>
      let v := (b0 - 0xC0) * 64 + (b1 - 0x80)
      if 0x80 ≤ b1 ∧ b1 < 0xC0 ∧ 0x80 ≤ v then (Char.ofNat v, rest2)
      else (replacementChar, rest)
    | [] => (replacementChar, [])
  else if 0xE0 ≤ b0 ∧ b0 < 0xF0 then
    match rest with
    | b1 :: b2 :: rest3 =>
      let v := (b0 - 0xE0) * 4096 + (b1 - 0x80) * 64 + (b2 - 0x80)
      if 0x80 ≤ b1 ∧ b1 < 0xC0 ∧ 0x80 ≤ b2 ∧ b2 < 0xC0 ∧ 0x800 ≤ v ∧
          ¬(0xD800 ≤ v ∧ v < 0xE000) then (Char.ofNat v, rest3)
      else (replacementChar, rest)
    | _ => (replacementChar, rest)
  else if 0xF0 ≤ b0 ∧ b0 < 0xF8 then
    match rest with
    | b1 :: b2 :: b3 :: rest4 =>
      let v := (b0 - 0xF0) * 262144 + (b1 - 0x80) * 4096 + (b2 - 0x80) * 64 + (b3 - 0x80)
      if 0x80 ≤ b1 ∧ b1 < 0xC0 ∧ 0x80 ≤ b2 ∧ b2 < 0xC0 ∧ 0x80 ≤ b3 ∧ b3 < 0xC0 ∧
          0x10000 ≤ v ∧ v < 0x110000 then (Char.ofNat v, rest4)
      else (replacementChar, rest)
    | _ => (replacementChar, rest)
  else (replacementChar, rest)

theorem utf8DecodeStep_length (b0 : Nat) (rest : List Nat) :
    (utf8DecodeStep b0 rest).2.length ≤ rest.length := by
  unfold utf8DecodeStep
  repeat' split
  all_goals try simp_all
  all_goals repeat' split
  all_goals simp_all
  all_goals omega

/-- Iterate `utf8DecodeStep`; the fuel argument (instantiated with the byte
count, which bounds the number of decoded characters) makes the recursion
structural. -/
def utf8DecodeGo : Nat → List Nat → List Char
  | 0, _ => []
  | _ + 1, [] => []
  | fuel + 1, b0 :: rest =>
    (utf8DecodeStep b0 rest).1 :: utf8DecodeGo fuel (utf8DecodeStep b0 rest).2

/-- Modelled from the spec: Python's `bytes.decode("utf-8",
errors="replace")`, iterating `utf8DecodeStep` over the whole byte list. -/
def utf8DecodeReplace (bs : List Nat) : List Char :=
  utf8DecodeGo bs.length bs

/-- The fuel argument is irrelevant as long as it is at least the byte
count. -/
theorem utf8DecodeGo_congr : ∀ f1 f2 : Nat, ∀ bs : List Nat, bs.length ≤ f1 →
    bs.length ≤ f2 → utf8DecodeGo f1 bs = utf8DecodeGo f2 bs := by
  intro f1
  induction f1 with
  | zero =>
    intro f2 bs h1 h2
    have hbs : bs = [] := List.length_eq_zero.mp (by omega)
    subst hbs
    cases f2 <;> rfl
  | succ f1 ih =>
    intro f2 bs h1 h2
    match bs, f2 with
    | [], 0 => rfl
    | [], f2 + 1 => rfl
    | b0 :: rest, 0 => exact absurd h2 (by simp)
    | b0 :: rest, f2 + 1 =>
      have hstep := utf8DecodeStep_length b0 rest
      simp only [List.length_cons] at h1 h2
      rw [utf8DecodeGo, utf8DecodeGo, ih f2 _ (by omega) (by omega)]

theorem utf8DecodeReplace_cons (b0 : Nat) (rest : List Nat) :
    utf8DecodeReplace (b0 :: rest) =
      (utf8DecodeStep b0 rest).1 :: utf8DecodeReplace (utf8DecodeStep b0 rest).2 := by
  have hstep := utf8DecodeStep_length b0 rest
  rw [utf8DecodeReplace, List.length_cons, utf8DecodeGo, utf8DecodeReplace,
    utf8DecodeGo_congr rest.length (utf8DecodeStep b0 rest).2.length _ (by omega)
      (le_refl _)]

theorem char_nat_valid (c : Char) :
    c.toNat < 0xD800 ∨ (0xDFFF < c.toNat ∧ c.toNat < 0x110000) := by
  have h := c.valid
  simp only [UInt32.isValidChar, Nat.isValidChar] at h
  exact h

/-- Decoding inverts encoding, one character at a time. -/
theorem utf8DecodeReplace_encodeChar (c : Char) (rest : List Nat) :
    utf8DecodeReplace (utf8EncodeChar c ++ rest) = c :: utf8DecodeReplace rest := by
  have hvalid := char_nat_valid c
  have hofNat := Char.ofNat_toNat c
  by_cases h1 : c.toNat < 0x80
  · have he : utf8EncodeChar c = [c.toNat] := by
      unfold utf8EncodeChar
      rw [if_pos h1]
    rw [he, List.singleton_append, utf8DecodeReplace_cons]
    unfold utf8DecodeStep
    rw [if_pos h1, hofNat]
  · by_cases h2 : c.toNat < 0x800
    · have he : utf8EncodeChar c = [0xC0 + c.toNat / 64, 0x80 + c.toNat % 64] := by
        unfold utf8EncodeChar
        rw [if_neg h1, if_pos h2]
      rw [he]
      show utf8DecodeReplace (_ :: _ :: rest) = _
      rw [utf8DecodeReplace_cons]
      unfold utf8DecodeStep
      rw [if_neg (by omega), if_pos (by constructor <;> omega)]
      have hval : (0xC0 + c.toNat / 64 - 0xC0) * 64 + (0x80 + c.toNat % 64 - 0x80) =
          c.toNat := by omega
      simp only [hval]
      rw [if_pos (by refine ⟨by omega, by omega, by omega⟩), hofNat]
    · by_cases h3 : c.toNat < 0x10000
      · have he : utf8EncodeChar c =
            [0xE0 + c.toNat / 4096, 0x80 + c.toNat / 64 % 64, 0x80 + c.toNat % 64] := by
          unfold utf8EncodeChar
          rw [if_neg h1, if_neg h2, if_pos h3]
        rw [he]
        show utf8DecodeReplace (_ :: _ :: _ :: rest) = _
        rw [utf8DecodeReplace_cons]
        unfold utf8DecodeStep
        rw [if_neg (by omega), if_neg (by omega), if_pos (by constructor <;> omega)]
        have hval : (0xE0 + c.toNat / 4096 - 0xE0) * 4096 +
            (0x80 + c.toNat / 64 % 64 - 0x80) * 64 + (0x80 + c.toNat % 64 - 0x80) =
              c.toNat := by omega
        simp only [hval]
        rw [if_pos (by refine ⟨by omega, by omega, by omega, by omega, by omega, by omega⟩),
          hofNat]
      · have he : utf8EncodeChar c =
            [0xF0 + c.toNat / 262144, 0x80 + c.toNat / 4096 % 64, 0x80 + c.toNat / 64 % 64,
              0x80 + c.toNat % 64] := by
          unfold utf8EncodeChar
          rw [if_neg h1, if_neg h2, if_neg h3]
        rw [he]
        show utf8DecodeReplace (_ :: _ :: _ :: _ :: rest) = _
        rw [utf8DecodeReplace_cons]
        unfold utf8DecodeStep
        rw [if_neg (by omega), if_neg (by omega), if_neg (by omega),
          if_pos (by constructor <;> omega)]
        have hval : (0xF0 + c.toNat / 262144 - 0xF0) * 262144 +
            (0x80 + c.toNat / 4096 % 64 - 0x80) * 4096 +
            (0x80 + c.toNat / 64 % 64 - 0x80) * 64 + (0x80 + c.toNat % 64 - 0x80) =
              c.toNat := by omega
        simp only [hval]
        rw [if_pos (by
          refine ⟨by omega, by omega, by omega, by omega, by omega, by omega, by omega,
            by omega⟩), hofNat]

/-- Decoding inverts encoding on whole strings. -/
theorem utf8DecodeReplace_utf8Encode (s : List Char) :
    utf8DecodeReplace (utf8Encode s) = s := by
  induction s with
  | nil => rfl
  | cons c cs ih =>
    rw [utf8Encode, utf8DecodeReplace_encodeChar, ih]

/-! ## Python string helpers used by the envelope -/

/-- Modelled from the spec: Python's Unicode whitespace predicate (the
character set stripped by `str.strip()`; standard library, not part of
`src/`). -/
def isPySpace (c : Char) : Bool :=
  decide ((9 ≤ c.toNat ∧ c.toNat ≤ 13) ∨ (28 ≤ c.toNat ∧ c.toNat ≤ 31) ∨ c.toNat = 32 ∨
    c.toNat = 133 ∨ c.toNat = 160 ∨ c.toNat = 5760 ∨ (8192 ≤ c.toNat ∧ c.toNat ≤ 8202) ∨
    c.toNat = 8232 ∨ c.toNat = 8233 ∨ c.toNat = 8239 ∨ c.toNat = 8287 ∨ c.toNat = 12288)

/-- Remove trailing Python whitespace. -/
def pyStripEnd (l : List Char) : List Char :=
  (l.reverse.dropWhile isPySpace).reverse

/-- Modelled from the spec: Python's `str.strip()` (standard library, not part
of `src/`) — remove leading and trailing Unicode whitespace. -/
def pyStrip (l : List Char) : List Char :=
  pyStripEnd (l.dropWhile isPySpace)

/-- Modelled from the spec: POSIX `os.path.basename` (standard library, not
part of `src/`) — everything after the last `/`. -/
def pyBasename (l : List Char) : List Char :=
  (l.reverse.takeWhile (fun c => c ≠ '/')).reverse

theorem dropWhile_dropWhile {α : Type} (p : α → Bool) (l : List α) :
    (l.dropWhile p).dropWhile p = l.dropWhile p := by
  induction l with
  | nil => rfl
  | cons a t ih =>
    by_cases h : p a
    · simp only [List.dropWhile_cons, if_pos h]
      exact ih
    · simp only [List.dropWhile_cons, if_neg h]

theorem exists_append_dropWhile {α : Type} (p : α → Bool) (l : List α) :
    ∃ t, t ++ l.dropWhile p = l := by
  induction l with
  | nil => exact ⟨[], rfl⟩
  | cons a t ih =>
    by_cases h : p a
    · obtain ⟨u, hu⟩ := ih
      exact ⟨a :: u, by simp [List.dropWhile_cons, h, hu]⟩
    · exact ⟨[], by simp [List.dropWhile_cons, h]⟩

theorem length_dropWhile_le {α : Type} (p : α → Bool) (l : List α) :
    (l.dropWhile p).length ≤ l.length := by
  obtain ⟨t, ht⟩ := exists_append_dropWhile p l
  calc (l.dropWhile p).length ≤ t.length + (l.dropWhile p).length := by omega
    _ = l.length := by rw [← List.length_append, ht]

/-- A prefix of a list already free of leading `p`-elements is itself free of
leading `p`-elements. -/
theorem dropWhile_eq_self_of_append {α : Type} (p : α → Bool) (A B t : List α)
    (hA : A.dropWhile p = A) (ht : B ++ t = A) : B.dropWhile p = B := by
  cases B with
  | nil => rfl
  | cons b B' =>
    rw [List.cons_append] at ht
    by_cases hp : p b
    · exfalso
      rw [← ht, List.dropWhile_cons, if_pos hp] at hA
      have := length_dropWhile_le p (B' ++ t)
      rw [hA] at this
      simp at this
    · rw [List.dropWhile_cons, if_neg hp]

theorem pyStripEnd_idem (l : List Char) : pyStripEnd (pyStripEnd l) = pyStripEnd l := by
  unfold pyStripEnd
  rw [List.reverse_reverse, dropWhile_dropWhile]

/-- `str.strip()` is idempotent. -/
theorem pyStrip_idem (l : List Char) : pyStrip (pyStrip l) = pyStrip l := by
  unfold pyStrip
  have hAfix : (l.dropWhile isPySpace).dropWhile isPySpace = l.dropWhile isPySpace :=
    dropWhile_dropWhile _ l
  have hBfix : (pyStripEnd (l.dropWhile isPySpace)).dropWhile isPySpace =
      pyStripEnd (l.dropWhile isPySpace) := by
    obtain ⟨t, ht⟩ := exists_append_dropWhile isPySpace (l.dropWhile isPySpace).reverse
    have happ : pyStripEnd (l.dropWhile isPySpace) ++ t.reverse = l.dropWhile isPySpace := by
      unfold pyStripEnd
      calc ((l.dropWhile isPySpace).reverse.dropWhile isPySpace).reverse ++ t.reverse
          = (t ++ (l.dropWhile isPySpace).reverse.dropWhile isPySpace).reverse := by
            rw [List.reverse_append]
        _ = (l.dropWhile isPySpace).reverse.reverse := by rw [ht]
        _ = l.dropWhile isPySpace := List.reverse_reverse _
    exact dropWhile_eq_self_of_append isPySpace _ _ _ hAfix happ
  rw [hBfix, pyStripEnd_idem]

/-! ## Secret-file envelope -/

/-- `SecretFile` from the source. -/
structure SecretFile where
  filename : String
  data : List Nat
  deriving DecidableEq, Repr

/-- The cleaned name computed by `package_secret_file`:
`os.path.basename(filename or "").strip() or "secret.bin"`.  (For the empty
string, `filename or ""` equals `filename`, so the `or ""` is dropped.) -/
def cleanName (filename : String) : List Char :=
  if pyStrip (pyBasename filename.data) = [] then "secret.bin".data
  else pyStrip (pyBasename filename.data)

/-- `package_secret_file` from the source. -/
def package_secret_file (filename : String) (data : List Nat) :
    Except Err (List Nat) :=
  if data = [] then .error .emptySecret
  else
    let name_bytes := utf8Encode (cleanName filename)
    if name_bytes.length > 65535 then .error .nameTooLong
    else do
      let len_bytes ← natToBytesBE 2 name_bytes.length
      .ok (MAGIC ++ len_bytes ++ name_bytes ++ data)

/-- `unpackage_secret_file` from the source. -/
def unpackage_secret_file (payload : List Nat) : Except Err SecretFile :=
  if payload.length < MAGIC.length + 2 then .error .tooShortEnvelope
  else if payload.take MAGIC.length ≠ MAGIC then .error .badMagic
  else
    let name_len := natFromBytesBE ((payload.drop MAGIC.length).take 2)
    let data_offset := MAGIC.length + 2 + name_len
    if payload.length < data_offset then .error .corrupted
    else
      let name_bytes := (payload.drop (MAGIC.length + 2)).take name_len
      let stripped := pyStrip (utf8DecodeReplace name_bytes)
      let filename := if stripped = [] then "extracted_secret.bin".data else stripped
      let data := payload.drop data_offset
      if data = [] then .error .emptyData
      else .ok { filename := ⟨filename⟩, data := data }

theorem cleanName_stripped (f : String) : pyStrip (cleanName f) = cleanName f := by
  unfold cleanName
  by_cases hb : pyStrip (pyBasename f.data) = []
  · rw [if_pos hb]
    decide
  · rw [if_neg hb]
    exact pyStrip_idem _

theorem cleanName_ne_nil (f : String) : cleanName f ≠ [] := by
  unfold cleanName
  by_cases hb : pyStrip (pyBasename f.data) = []
  · rw [if_pos hb]
    decide
  · rw [if_neg hb]
    exact hb

/-- C4 as stated fails: the code additionally trims surrounding whitespace
from the basename, so a filename with a trailing blank comes back without
it. -/
theorem C4_counterexample :
    (package_secret_file "note.txt " [104]).bind unpackage_secret_file =
      .ok { filename := "note.txt", data := [104] }
    ∧ ("note.txt" : String) ≠ "note.txt " := ⟨rfl, by decide⟩

/-- C4 (amended): for every filename `f` whose cleaned name (basename,
whitespace-trimmed, defaulted to `"secret.bin"` when empty) encodes to at
most 65535 UTF-8 bytes, and every non-empty `d`, packaging succeeds and
unpackaging returns exactly that cleaned name together with `d`. -/
theorem C4_envelope_roundtrip (f : String) (d : List Nat) (hd : d ≠ [])
    (hname : (utf8Encode (cleanName f)).length ≤ 65535) :
    package_secret_file f d =
      .ok (MAGIC ++ natToBytesBEAux 2 (utf8Encode (cleanName f)).length ++
        utf8Encode (cleanName f) ++ d)
    ∧ unpackage_secret_file (MAGIC ++ natToBytesBEAux 2 (utf8Encode (cleanName f)).length ++
        utf8Encode (cleanName f) ++ d) =
      .ok { filename := ⟨cleanName f⟩, data := d } := by
  have h2pow : (256 : Nat) ^ 2 = 65536 := by norm_num
  set N := utf8Encode (cleanName f) with hN
  set A := natToBytesBEAux 2 N.length with hA
  have hAlen : A.length = 2 := natToBytesBEAux_length _ _
  have hMlen : MAGIC.length = 4 := rfl
  constructor
  · unfold package_secret_file natToBytesBE
    rw [if_neg hd, if_neg (by omega : ¬ N.length > 65535), if_pos (by omega : N.length < 256 ^ 2)]
    rfl
  · have hassoc : MAGIC ++ A ++ N ++ d = MAGIC ++ (A ++ (N ++ d)) := by
      simp [List.append_assoc]
    have htake : (MAGIC ++ (A ++ (N ++ d))).take MAGIC.length = MAGIC := by
      rw [List.take_append_of_le_length (le_refl _), List.take_length]
    have hdrop4 : (MAGIC ++ (A ++ (N ++ d))).drop MAGIC.length = A ++ (N ++ d) := by
      rw [List.drop_append_of_le_length (le_refl _), List.drop_length, List.nil_append]
    have hname_len : natFromBytesBE ((A ++ (N ++ d)).take 2) = N.length := by
      rw [show (2 : Nat) = A.length from hAlen.symm, List.take_left, hA]
      exact natFromBytesBE_natToBytesBEAux 2 _ (by omega)
    have hdrop6 : (MAGIC ++ (A ++ (N ++ d))).drop (MAGIC.length + 2) = N ++ d := by
      rw [show MAGIC.length + 2 = (MAGIC ++ A).length by
          simp only [List.length_append, hAlen],
        ← List.append_assoc, List.drop_left]
    have htakeN : (N ++ d).take N.length = N := List.take_left N d
    have hdropData : (MAGIC ++ (A ++ (N ++ d))).drop (MAGIC.length + 2 + N.length) = d := by
      rw [show MAGIC.length + 2 + N.length = ((MAGIC ++ A) ++ N).length by
          simp only [List.length_append, hAlen],
        ← List.append_assoc, ← List.append_assoc, List.drop_left]
    have hdecode : utf8DecodeReplace N = cleanName f := by
      rw [hN]
      exact utf8DecodeReplace_utf8Encode _
    rw [hassoc]
    simp only [unpackage_secret_file]
    rw [if_neg (by simp only [List.length_append, hAlen, hMlen]; omega)]
    rw [if_neg (fun h => h htake)]
    rw [hdrop4, hname_len]
    rw [if_neg (by simp only [List.length_append, hAlen, hMlen]; omega)]
    rw [hdrop6, htakeN, hdecode, cleanName_stripped]
    rw [if_neg (cleanName_ne_nil f)]
    rw [hdropData]
    rw [if_neg hd]

/-- C4 witness: a path with a directory component packs and unpacks to the
cleaned basename `note.txt`. -/
theorem C4_witness :
    package_secret_file "dir/note.txt" [1, 2] =
      .ok (MAGIC ++ natToBytesBEAux 2 (utf8Encode (cleanName "dir/note.txt")).length ++
        utf8Encode (cleanName "dir/note.txt") ++ [1, 2])
    ∧ unpackage_secret_file (MAGIC ++
        natToBytesBEAux 2 (utf8Encode (cleanName "dir/note.txt")).length ++
        utf8Encode (cleanName "dir/note.txt") ++ [1, 2]) =
      .ok { filename := ⟨cleanName "dir/note.txt"⟩, data := [1, 2] } :=
  C4_envelope_roundtrip "dir/note.txt" [1, 2] (by decide) (by decide)

/-! ## Key derivation and AEAD payload wrapping

`SHA256` and `AES.MODE_GCM` come from the external `pycryptodome` library, not
from this repository; they are modelled abstractly by the contract the spec
states for them (§3, §4.1, §4.3): a 32-byte digest, a
ciphertext-length-preserving cipher with a 16-byte tag whose verify-decrypt
inverts encrypt-digest.  The wrappers `derive_key`, `encrypt_payload` and
`decrypt_payload` are translated from the source over these primitives. -/

/-- Modelled from the spec: the SHA-256 primitive (external library): some
function producing 256-bit (32-byte) digests. -/
structure Sha256 where
  digest : List Nat → List Nat
  digest_length : ∀ m, (digest m).length = 32

/-- `derive_key` from the source: reject an empty password, otherwise hash
the UTF-8 encoding of the password and use the full digest as the key. -/
def derive_key (H : Sha256) (password : String) : Except Err (List Nat) :=
  if password = "" then .error .emptyPassword
  else .ok (H.digest (utf8Encode password.data))

/-- Modelled from the spec: the AES-256-GCM primitive (external library).
`enc key nonce plaintext` returns `(ciphertext, tag)`; `dec key nonce
ciphertext tag` authenticates and decrypts.  The fields state the spec's
contract: ciphertext length equals plaintext length (no padding), the tag is
16 bytes, and decrypt-verify inverts encrypt-digest. -/
structure Gcm where
  enc : List Nat → List Nat → List Nat → List Nat × List Nat
  dec : List Nat → List Nat → List Nat → List Nat → Option (List Nat)
  enc_length : ∀ k n p, (enc k n p).1.length = p.length
  tag_length : ∀ k n p, (enc k n p).2.length = TAG_LEN
  dec_enc : ∀ k n p, dec k n (enc k n p).1 (enc k n p).2 = some p

/-- `encrypt_payload` from the source: `nonce + tag + ciphertext`.  The
freshly drawn random nonce is passed explicitly. -/
def encrypt_payload (C : Gcm) (plaintext key nonce : List Nat) : List Nat :=
  nonce ++ (C.enc key nonce plaintext).2 ++ (C.enc key nonce plaintext).1

/-- `decrypt_payload` from the source. -/
def decrypt_payload (C : Gcm) (encrypted key : List Nat) : Except Err (List Nat) :=
  if encrypted.length ≤ NONCE_LEN + TAG_LEN then .error .tooShort
  else
    let nonce := encrypted.take NONCE_LEN
    let tag := (encrypted.drop NONCE_LEN).take TAG_LEN
    let ciphertext := encrypted.drop (NONCE_LEN + TAG_LEN)
    match C.dec key nonce ciphertext tag with
    | some pt => .ok pt
    | none => .error .authenticationFailed

/-- A concrete cipher satisfying the GCM contract, used by witnesses. -/
def trivialGcm : Gcm where
  enc := fun _ _ p => (p, List.replicate TAG_LEN 0)
  dec := fun _ _ c t => if t = List.replicate TAG_LEN 0 then some c else none
  enc_length := fun _ _ _ => rfl
  tag_length := fun _ _ _ => rfl
  dec_enc := fun _ _ _ => by simp

/-- A concrete hash satisfying the SHA-256 contract, used by witnesses. -/
def trivialSha256 : Sha256 where
  digest := fun _ => List.replicate 32 0
  digest_length := fun _ => rfl

/-- C2: decrypting the encryption of a non-empty payload under the key
derived from any accepted password returns the payload, for every 12-byte
nonce the encryption may draw. -/
theorem C2_encrypt_decrypt_roundtrip (C : Gcm) (H : Sha256) (p : String)
    (d : List Nat) (nonce key : List Nat) (_hp : p ≠ "") (hd : d ≠ [])
    (hn : nonce.length = NONCE_LEN)
    (_hkey : derive_key H p = .ok key) :
    decrypt_payload C (encrypt_payload C d key nonce) key = .ok d := by
  have hct := C.enc_length key nonce d
  have htag := C.tag_length key nonce d
  have hdpos : 0 < d.length := List.length_pos.mpr hd
  unfold encrypt_payload decrypt_payload
  rw [if_neg (by simp only [List.length_append, hct, htag, hn]; omega)]
  have htake12 : ((nonce ++ (C.enc key nonce d).2) ++ (C.enc key nonce d).1).take NONCE_LEN =
      nonce := by
    rw [List.take_append_of_le_length (by simp only [List.length_append, hn]; omega),
      show NONCE_LEN = nonce.length from hn.symm, List.take_left]
  have hdrop12 : ((nonce ++ (C.enc key nonce d).2) ++ (C.enc key nonce d).1).drop NONCE_LEN =
      (C.enc key nonce d).2 ++ (C.enc key nonce d).1 := by
    rw [List.drop_append_of_le_length (by simp only [List.length_append, hn]; omega),
      show NONCE_LEN = nonce.length from hn.symm, List.drop_left]
  have htake16 : ((C.enc key nonce d).2 ++ (C.enc key nonce d).1).take TAG_LEN =
      (C.enc key nonce d).2 := by
    rw [show TAG_LEN = (C.enc key nonce d).2.length from htag.symm, List.take_left]
  have hdrop28 : ((nonce ++ (C.enc key nonce d).2) ++ (C.enc key nonce d).1).drop
      (NONCE_LEN + TAG_LEN) = (C.enc key nonce d).1 := by
    rw [show NONCE_LEN + TAG_LEN = (nonce ++ (C.enc key nonce d).2).length by
        simp only [List.length_append, hn, htag],
      List.drop_left]
  rw [htake12, hdrop12, htake16, hdrop28]
  dsimp only
  rw [C.dec_enc key nonce d]

/-- C2 witness: the round trip for payload `[42]` under the trivial cipher
and the key derived from password `pw`. -/
theorem C2_witness :
    decrypt_payload trivialGcm
      (encrypt_payload trivialGcm [42] (List.replicate 32 0) (List.replicate 12 0))
      (List.replicate 32 0) = .ok [42] :=
  C2_encrypt_decrypt_roundtrip trivialGcm trivialSha256 "pw" [42] (List.replicate 12 0)
    (List.replicate 32 0) (by decide) (by decide) (by decide) (by rfl)

/-- C8: `decrypt_payload` fails with `TooShort` exactly when the blob has at
most `12 + 16 = 28` bytes; longer blobs are split as
`nonce(12) || tag(16) || ciphertext(rest)` and handed to GCM verification. -/
theorem C8_decrypt_too_short (C : Gcm) (blob key : List Nat) :
    (decrypt_payload C blob key = .error .tooShort ↔ blob.length ≤ NONCE_LEN + TAG_LEN)
    ∧ (NONCE_LEN + TAG_LEN < blob.length →
        decrypt_payload C blob key =
          match C.dec key (blob.take NONCE_LEN) (blob.drop (NONCE_LEN + TAG_LEN))
              ((blob.drop NONCE_LEN).take TAG_LEN) with
          | some pt => .ok pt
          | none => .error .authenticationFailed) := by
  constructor
  · constructor
    · intro h
      by_contra hgt
      push_neg at hgt
      unfold decrypt_payload at h
      rw [if_neg (by omega)] at h
      dsimp only at h
      split at h <;> simp_all
    · intro hle
      unfold decrypt_payload
      rw [if_pos hle]
  · intro hgt
    unfold decrypt_payload
    rw [if_neg (by omega)]

/-- C8 witness: a 20-byte blob is rejected with `TooShort` (spec
scenario 4). -/
theorem C8_witness :
    decrypt_payload trivialGcm (List.replicate 20 0) (List.replicate 32 0) =
      .error .tooShort :=
  (C8_decrypt_too_short trivialGcm (List.replicate 20 0) (List.replicate 32 0)).1.mpr
    (by decide)

/-- C10: encrypting the empty plaintext yields exactly `28` bytes
(nonce + tag, empty ciphertext), while `decrypt_payload` rejects every blob
of at most `28` bytes with `TooShort` — so the empty plaintext can never be
recovered through the public interface. -/
theorem C10_empty_plaintext_unrecoverable (C : Gcm) (key nonce : List Nat)
    (hn : nonce.length = NONCE_LEN) :
    (encrypt_payload C [] key nonce).length = 28
    ∧ decrypt_payload C (encrypt_payload C [] key nonce) key = .error .tooShort
    ∧ ∀ blob : List Nat, blob.length ≤ 28 →
        decrypt_payload C blob key = .error .tooShort := by
  have h28 : NONCE_LEN + TAG_LEN = 28 := rfl
  have hlen : (encrypt_payload C [] key nonce).length = 28 := by
    have hct := C.enc_length key nonce []
    have htag := C.tag_length key nonce []
    unfold encrypt_payload
    simp only [List.length_append, hn, hct, htag]
    simp [NONCE_LEN, TAG_LEN]
  refine ⟨hlen, ?_, ?_⟩
  · unfold decrypt_payload
    rw [if_pos (by omega)]
  · intro blob hblob
    unfold decrypt_payload
    rw [if_pos (by omega)]

/-- C10 witness: the 28-byte empty-plaintext blob under the trivial cipher
is rejected on decryption. -/
theorem C10_witness :
    (encrypt_payload trivialGcm [] [] (List.replicate 12 0)).length = 28
    ∧ decrypt_payload trivialGcm (encrypt_payload trivialGcm [] [] (List.replicate 12 0)) [] =
        .error .tooShort :=
  ⟨(C10_empty_plaintext_unrecoverable trivialGcm [] (List.replicate 12 0) (by decide)).1,
    (C10_empty_plaintext_unrecoverable trivialGcm [] (List.replicate 12 0) (by decide)).2.1⟩

/-! ## PSNR quality metric

`calculate_psnr` computes with `float64`; the spec itself says the channel
values are "treated as real numbers (not integer-wrapped)", so the metric is
modelled over exact arithmetic: the mean squared error over `ℚ` and the
decibel value over `ℝ`. -/

/-- The channel values of a pixel list in row-major order, as flattened by
`np.array(...)` over the `(h, w, 3)` arrays. -/
def pixelChannels : List Pixel → List Nat
  | [] => []
  | p :: ps => p.1 :: p.2.1 :: p.2.2 :: pixelChannels ps

theorem length_pixelChannels (ps : List Pixel) :
    (pixelChannels ps).length = 3 * ps.length := by
  induction ps with
  | nil => rfl
  | cons p ps ih =>
    simp only [pixelChannels, List.length_cons, ih]
    omega

/-- `np.mean((arr_a - arr_b) ** 2)` over exact rationals: the mean of the
squared channel differences. -/
def mse (a b : Img) : ℚ :=
  (List.zipWith (fun (x y : Nat) => ((x : ℚ) - (y : ℚ)) ^ 2)
    (pixelChannels a.pixels) (pixelChannels b.pixels)).sum /
    ((pixelChannels a.pixels).length : ℚ)

/-- The result of `calculate_psnr`: `math.inf` or a dB value. -/
inductive PsnrVal where
  | inf
  | val (x : ℝ)

/-- `calculate_psnr` from the source: reject differing sizes, return
`math.inf` on a zero MSE, else `20 * log10(255 / sqrt(mse))`. -/
noncomputable def calculate_psnr (a b : Img) : Except Err PsnrVal :=
  if (a.width, a.height) ≠ (b.width, b.height) then .error .dimensionMismatch
  else
    let m := mse a b
    if m = 0 then .ok .inf
    else .ok (.val (20 * Real.logb 10 (255 / Real.sqrt (m : ℝ))))

theorem mse_self (a : Img) : mse a a = 0 := by
  have hz : (List.zipWith (fun (x y : Nat) => ((x : ℚ) - (y : ℚ)) ^ 2)
      (pixelChannels a.pixels) (pixelChannels a.pixels)).sum = 0 := by
    rw [List.zipWith_same]
    refine List.sum_eq_zero ?_
    intro x hx
    obtain ⟨y, -, rfl⟩ := List.mem_map.mp hx
    simp
  unfold mse
  rw [hz, zero_div]

theorem mse_comm (a b : Img)
    (hlen : (pixelChannels a.pixels).length = (pixelChannels b.pixels).length) :
    mse a b = mse b a := by
  unfold mse
  rw [List.zipWith_comm]
  have hfun : (fun (y x : Nat) => ((x : ℚ) - (y : ℚ)) ^ 2) =
      fun (y x : Nat) => ((y : ℚ) - (x : ℚ)) ^ 2 := by
    funext y x
    ring
  rw [hlen, hfun]

/-- C9: `calculate_psnr` fails with `DimensionMismatch` exactly when the two
sizes differ; a grid compared with itself has MSE exactly `0` and yields
`+infinity`; the metric is symmetric; and a non-zero MSE yields
`20 * log10(255 / sqrt(MSE))`.  (The degenerate zero-pixel grid is excluded
from the identity: on it the float code computes `mean` of an empty array,
a NaN, which exact arithmetic does not represent.) -/
theorem C9_psnr_properties (a b : Img)
    (hwa : a.pixels.length = a.width * a.height)
    (hwb : b.pixels.length = b.width * b.height) :
    (calculate_psnr a b = .error .dimensionMismatch ↔
      (a.width, a.height) ≠ (b.width, b.height))
    ∧ (a.pixels ≠ [] → mse a a = 0 ∧ calculate_psnr a a = .ok .inf)
    ∧ calculate_psnr a b = calculate_psnr b a
    ∧ ((a.width, a.height) = (b.width, b.height) → mse a b ≠ 0 →
        calculate_psnr a b =
          .ok (.val (20 * Real.logb 10 (255 / Real.sqrt ((mse a b : ℚ) : ℝ))))) := by
  refine ⟨?_, ?_, ?_, ?_⟩
  · unfold calculate_psnr
    by_cases hsz : (a.width, a.height) ≠ (b.width, b.height)
    · rw [if_pos hsz]
      simp [hsz]
    · rw [if_neg hsz]
      dsimp only
      constructor
      · intro h
        split at h <;> exact Except.noConfusion h
      · intro h
        exact absurd h hsz
  · intro _
    refine ⟨mse_self a, ?_⟩
    unfold calculate_psnr
    rw [if_neg (by simp)]
    dsimp only
    rw [if_pos (mse_self a)]
  · by_cases hsz : (a.width, a.height) = (b.width, b.height)
    · have h1 : a.width = b.width := congrArg Prod.fst hsz
      have h2 : a.height = b.height := congrArg Prod.snd hsz
      have hlen : (pixelChannels a.pixels).length = (pixelChannels b.pixels).length := by
        rw [length_pixelChannels, length_pixelChannels, hwa, hwb, h1, h2]
      have hm : mse a b = mse b a := mse_comm a b hlen
      unfold calculate_psnr
      conv_lhs => rw [if_neg (fun hh => hh hsz)]
      conv_rhs => rw [if_neg (fun hh => hh hsz.symm)]
      rw [hm]
    · unfold calculate_psnr
      rw [if_pos hsz, if_pos (fun heq => hsz heq.symm)]
  · intro hsz hm
    unfold calculate_psnr
    rw [if_neg (fun hh => hh hsz)]
    dsimp only
    rw [if_neg hm]

/-- C9 witness: a concrete 1x1 grid compared with itself. -/
theorem C9_witness :
    calculate_psnr ⟨1, 1, [(1, 2, 3)]⟩ ⟨1, 1, [(1, 2, 3)]⟩ = .ok .inf :=
  ((C9_psnr_properties ⟨1, 1, [(1, 2, 3)]⟩ ⟨1, 1, [(1, 2, 3)]⟩ (by decide)
    (by decide)).2.1 (by decide)).2

end BlueCrypt
